import Mathlib

/-!
Verification of `src/tools/font.py`: a build-time font asset generator that
rasterizes a fixed glyph table and packs the canvas into a 1-bit-per-pixel
row-major byte sequence.  We embed the pure parts of the program (the
configuration computation, the glyph table construction and the `get_1bit`
bit packer) as Lean functions and prove the specification claims about them.
-/

namespace GGOSFont

/-- An RGB triple, as returned by `im.getpixel((x, y))`. -/
abbrev Pixel := Nat × Nat × Nat

/-- An image modelled as per-pixel RGB readback: `im x y` is
`im.getpixel((x, y))`.  The Python code only ever reads pixels, so this
captures everything `get_1bit` sees of the canvas. -/
abbrev Image := Nat → Nat → Pixel

/-- Model of `ASCII = bytes(i for i in range(128)).decode()`: the first 128 ASCII
code points, as a list of character codes. -/
def ASCII : List Nat := List.range 128

/-- Python `str.isprintable()` restricted to single characters with code
point below 128: true exactly for codes 32..126 (space through `~`);
control characters 0..31 and 127 are not printable. -/
def isPrintable (c : Nat) : Bool := 32 ≤ c && c ≤ 126

/-- The character codes of the glyph table built in `draw_img`:
`''.join(i for i in ASCII if i.isprintable()) + '?'` (the code of `?` is 63). -/
def tableChars : List Nat := ASCII.filter isPrintable ++ [63]

/-- The grid built in `draw_img`:
`table = [table[idx * 16:idx * 16 + 16] for idx in range(6)]`
(Python slicing `l[a:b]` is drop `a` then take `b - a`). -/
def glyphGrid : List (List Nat) :=
  (List.range 6).map (fun idx => (tableChars.drop (idx * 16)).take 16)

/-- The configuration bundle of class `FontCfg`.  The Python class first
binds `SIZE = 26` (the point size), derives the cell and canvas metrics from
it, and rebinds `SIZE` to the canvas tuple; here `SIZE` is the final canvas
tuple. -/
structure FontCfg where
  NAME : String
  FONT : String
  WIDTH : Nat
  HEIGHT : Nat
  X_PAD : Nat
  Y_PAD : Nat
  CHAR_SIZE : Nat
  SIZE : Nat × Nat

/-- The default `FontCfg()` instance.  `WIDTH = int(SIZE / 16 * 9) + 1` with
`SIZE = 26`: the Python float expression `26 / 16 * 9` is exact (both
intermediate values are small dyadic rationals), so `int(...)` is the
rational floor of `26 / 16 * 9`. -/
def FontCfg.default : FontCfg :=
  let S : Nat := 26
  let W : Nat := (⌊(S : ℚ) / 16 * 9⌋).toNat + 1
  let H : Nat := S + 4
  { NAME := "JBMONO", FONT := "JetBrainsMono.ttf", WIDTH := W, HEIGHT := H
    X_PAD := 0, Y_PAD := 0, CHAR_SIZE := 25, SIZE := (W * 16, H * 6) }

/-- Model of `FontCfg.as_title`: the Python method mutates the configuration in place into the title
variant; modelled as a function returning the updated record.
`WIDTH = int(BLOCK_SIZE / 16 * 9)` with `BLOCK_SIZE = 50`; the float
expression `50 / 16 * 9` is again exact, hence the rational floor. -/
def FontCfg.as_title (_cfg : FontCfg) : FontCfg :=
  let B : Nat := 50
  let W : Nat := (⌊(B : ℚ) / 16 * 9⌋).toNat
  let H : Nat := B + 4
  { NAME := "JBMONO_TITLE", FONT := "JetBrainsMono.ttf", WIDTH := W, HEIGHT := H
    X_PAD := 0, Y_PAD := 0, CHAR_SIZE := 48, SIZE := (W * 16, H * 6) }

/-- One step of the inner `for x in range(cfg.SIZE[0])` loop of `get_1bit`.
State is `(v, bit, charmap)`:
```
b = im.getpixel((x, y))
v = (v << 1) + (1 if b[0] > 32 else 0)
bit += 1
if bit == 8: charmap.append(v); v = 0; bit = 0
``` -/
def get1bitStepX (im : Image) (y : Nat) (st : Nat × Nat × List Nat)
    (x : Nat) : Nat × Nat × List Nat :=
  let v := st.1
  let bit := st.2.1
  let charmap := st.2.2
  let b := im x y
  let v' := (v <<< 1) + (if 32 < b.1 then 1 else 0)
  let bit' := bit + 1
  if bit' = 8 then (0, 0, charmap ++ [v']) else (v', bit', charmap)

/-- One iteration of the outer `for y in range(cfg.SIZE[1])` loop of
`get_1bit`: reset `v = 0`, `bit = 0`, run the inner loop over
`x in range(cfg.SIZE[0])`, then
`if bit != 0: charmap.append(v << (7 - bit))`. -/
def get1bitRowLoop (cfg : FontCfg) (im : Image) (y : Nat)
    (charmap : List Nat) : List Nat :=
  let st := (List.range cfg.SIZE.1).foldl (get1bitStepX im y) (0, 0, charmap)
  if st.2.1 ≠ 0 then st.2.2 ++ [st.1 <<< (7 - st.2.1)] else st.2.2

/-- Model of `get_1bit(cfg, im)`, the bit packer.  Scans the canvas row-major,
thresholds the red channel at 32, packs 8 pixels per byte MSB-first, and
emits a shifted trailing byte for a partial group at the end of each row. -/
def get_1bit (cfg : FontCfg) (im : Image) : List Nat :=
  (List.range cfg.SIZE.2).foldl (fun charmap y => get1bitRowLoop cfg im y charmap) []

/-! ## Specification-side definitions (derived views used to state claims) -/

/-- The bit the packer collects for pixel `(x, y)`: 1 iff the red channel
exceeds 32. -/
def pixbit (im : Image) (x y : Nat) : Nat :=
  if 32 < (im x y).1 then 1 else 0

/-- The sequence of bits collected for canvas row `y`, left to right. -/
def rowBits (cfg : FontCfg) (im : Image) (y : Nat) : List Nat :=
  (List.range cfg.SIZE.1).map (fun x => pixbit im x y)

/-- MSB-first accumulation of a bit list into a number, mirroring the
`v = (v << 1) + bit` accumulator of `get_1bit`, started from `v`. -/
def packValFrom (v : Nat) (bits : List Nat) : Nat :=
  bits.foldl (fun a b => (a <<< 1) + b) v

/-- MSB-first value of a bit list (accumulator started from 0). -/
def packVal (bits : List Nat) : Nat := packValFrom 0 bits

/-- The byte sequence `get_1bit` produces for one row of bits: full groups
of 8 become `packVal` bytes; a trailing partial group of `r` bits becomes
`packVal group <<< (7 - r)`. -/
def packRow (bits : List Nat) : List Nat :=
  if bits = [] then []
  else if bits.length < 8 then [packVal bits <<< (7 - bits.length)]
  else packVal (bits.take 8) :: packRow (bits.drop 8)
termination_by bits.length
decreasing_by
  simp only [List.length_drop]
  omega

/-- Number of bytes `get_1bit` emits per canvas row: `ceil(width / 8)`. -/
def bytesPerRow (cfg : FontCfg) : Nat := (cfg.SIZE.1 + 7) / 8

/-- The bit position inside its byte at which the bit of pixel column `x`
is stored, for a canvas of width `w`: position `7 - x % 8` inside a
complete group of 8, and `6 - x % 8` inside a trailing partial group
(the code shifts the partial byte by `7 - r` rather than `8 - r`). -/
def bitPos (w x : Nat) : Nat :=
  if x / 8 < w / 8 then 7 - x % 8 else 6 - x % 8

/-- The packed bit for pixel `(x, y)`, extracted from the flat output list:
byte `y * bytesPerRow + x / 8`, bit position `bitPos`. -/
def extractBit (cfg : FontCfg) (out : List Nat) (x y : Nat) : Bool :=
  Nat.testBit (out.getD (y * bytesPerRow cfg + x / 8) 0) (bitPos cfg.SIZE.1 x)

/-- The inner-loop step of `get_1bit` expressed on the already-thresholded
bit value (proof-side view of `get1bitStepX`). -/
def stepB (st : Nat × Nat × List Nat) (b : Nat) : Nat × Nat × List Nat :=
  if st.2.1 + 1 = 8 then (0, 0, st.2.2 ++ [(st.1 <<< 1) + b])
  else ((st.1 <<< 1) + b, st.2.1 + 1, st.2.2)

/-! ## Concrete witnesses -/

/-- A tiny 1×1 canvas configuration, exercising the partial-byte path. -/
def cfg1 : FontCfg :=
  { NAME := "T1", FONT := "t.ttf", WIDTH := 1, HEIGHT := 1
    X_PAD := 0, Y_PAD := 0, CHAR_SIZE := 1, SIZE := (1, 1) }

/-- A 3×2 canvas configuration (width not a multiple of 8). -/
def cfg3 : FontCfg :=
  { NAME := "T3", FONT := "t.ttf", WIDTH := 3, HEIGHT := 2
    X_PAD := 0, Y_PAD := 0, CHAR_SIZE := 1, SIZE := (3, 2) }

/-- An 8×1 canvas configuration (width a multiple of 8). -/
def cfg8 : FontCfg :=
  { NAME := "T8", FONT := "t.ttf", WIDTH := 8, HEIGHT := 1
    X_PAD := 0, Y_PAD := 0, CHAR_SIZE := 1, SIZE := (8, 1) }

/-- An all-white image: every pixel is above threshold. -/
def imOn : Image := fun _ _ => (255, 255, 255)

/-- An image that is white exactly at the origin, described differently
from `imOn` but agreeing with it on a 1×1 canvas. -/
def imOrigin : Image := fun x y => if x = 0 ∧ y = 0 then (255, 255, 255) else (0, 0, 0)


lemma stepX_eq_stepB (im : Image) (y : Nat) (st : Nat × Nat × List Nat) (x : Nat) :
    get1bitStepX im y st x = stepB st (pixbit im x y) := rfl

lemma foldl_stepB_low (bits : List Nat) : ∀ (v bit : Nat) (cm : List Nat),
    bit + bits.length < 8 →
    bits.foldl stepB (v, bit, cm) = (packValFrom v bits, bit + bits.length, cm) := by
  induction bits with
  | nil => intro v bit cm h; simp [packValFrom]
  | cons b rest ih =>
    intro v bit cm h
    have hne : ¬ (bit + 1 = 8) := by
      simp only [List.length_cons] at h; omega
    simp only [List.foldl_cons, stepB, hne, if_false]
    rw [ih ((v <<< 1) + b) (bit + 1) cm (by simp only [List.length_cons] at h; omega)]
    simp only [packValFrom, List.foldl_cons, List.length_cons, Prod.mk.injEq,
      true_and, and_true]
    omega

lemma foldl_stepB_full (bits : List Nat) : ∀ (v bit : Nat) (cm : List Nat),
    bit < 8 → bit + bits.length = 8 →
    bits.foldl stepB (v, bit, cm) = (0, 0, cm ++ [packValFrom v bits]) := by
  induction bits with
  | nil => intro v bit cm h h8; simp at h8; omega
  | cons b rest ih =>
    intro v bit cm h h8
    simp only [List.length_cons] at h8
    by_cases h7 : bit + 1 = 8
    · have : rest = [] := by
        have : rest.length = 0 := by omega
        exact List.eq_nil_of_length_eq_zero this
      subst this
      simp [stepB, h7, packValFrom]
    · simp only [List.foldl_cons, stepB, h7, if_false]
      rw [ih ((v <<< 1) + b) (bit + 1) cm (by omega) (by omega)]
      simp [packValFrom]


lemma rowLoop_eq_packRow (bits : List Nat) : ∀ cm : List Nat,
    (if (bits.foldl stepB (0, 0, cm)).2.1 ≠ 0 then
      (bits.foldl stepB (0, 0, cm)).2.2 ++
        [(bits.foldl stepB (0, 0, cm)).1 <<< (7 - (bits.foldl stepB (0, 0, cm)).2.1)]
     else (bits.foldl stepB (0, 0, cm)).2.2)
      = cm ++ packRow bits := by
  induction bits using packRow.induct with
  | case1 => intro cm; simp [packRow]
  | case2 bits hne hlt =>
    intro cm
    have hlen : bits.length ≠ 0 := fun h => hne (List.eq_nil_of_length_eq_zero h)
    rw [foldl_stepB_low bits 0 0 cm (by omega)]
    simp only [Nat.zero_add]
    rw [packRow, if_neg hne, if_pos hlt]
    simp [hlen, packVal]
  | case3 bits hne hge ih =>
    intro cm
    have hsplit : bits = bits.take 8 ++ bits.drop 8 := (List.take_append_drop 8 bits).symm
    conv_lhs => rw [hsplit]
    rw [List.foldl_append]
    rw [foldl_stepB_full (bits.take 8) 0 0 cm (by omega)
      (by simp only [Nat.zero_add, List.length_take]; omega)]
    rw [ih]
    conv_rhs => rw [packRow]
    rw [if_neg hne, if_neg (by omega : ¬ bits.length < 8)]
    simp [packVal, List.append_assoc]


lemma get1bitRowLoop_eq (cfg : FontCfg) (im : Image) (y : Nat) (cm : List Nat) :
    get1bitRowLoop cfg im y cm = cm ++ packRow (rowBits cfg im y) := by
  have hfold : (List.range cfg.SIZE.1).foldl (get1bitStepX im y) (0, 0, cm)
      = (rowBits cfg im y).foldl stepB (0, 0, cm) := by
    rw [rowBits, List.foldl_map]
    rfl
  rw [get1bitRowLoop]
  simp only [hfold]
  exact rowLoop_eq_packRow (rowBits cfg im y) cm

lemma foldl_append_join {α : Type} (f : α → List Nat) (l : List α) :
    ∀ init : List Nat,
      l.foldl (fun cm y => cm ++ f y) init = init ++ (l.map f).flatten := by
  induction l with
  | nil => intro init; simp
  | cons a l ih =>
    intro init
    simp only [List.foldl_cons, List.map_cons, List.flatten]
    rw [ih (init ++ f a)]
    simp [List.append_assoc]

lemma get_1bit_eq_join (cfg : FontCfg) (im : Image) :
    get_1bit cfg im
      = ((List.range cfg.SIZE.2).map (fun y => packRow (rowBits cfg im y))).flatten := by
  rw [get_1bit]
  have hf : (fun (charmap : List Nat) (y : Nat) => get1bitRowLoop cfg im y charmap)
      = fun cm y => cm ++ packRow (rowBits cfg im y) := by
    funext cm y
    exact get1bitRowLoop_eq cfg im y cm
  rw [hf, foldl_append_join]
  simp


lemma packRow_length (bits : List Nat) :
    (packRow bits).length = (bits.length + 7) / 8 := by
  induction bits using packRow.induct with
  | case1 => simp [packRow]
  | case2 bits hne hlt =>
    have hlen : bits.length ≠ 0 := fun h => hne (List.eq_nil_of_length_eq_zero h)
    rw [packRow, if_neg hne, if_pos hlt]
    simp only [List.length_cons, List.length_nil]
    omega
  | case3 bits hne hge ih =>
    rw [packRow, if_neg hne, if_neg (by omega : ¬ bits.length < 8)]
    simp only [List.length_cons, ih, List.length_drop]
    omega

lemma rowBits_length (cfg : FontCfg) (im : Image) (y : Nat) :
    (rowBits cfg im y).length = cfg.SIZE.1 := by
  simp [rowBits]

lemma get_1bit_length (cfg : FontCfg) (im : Image) :
    (get_1bit cfg im).length = cfg.SIZE.2 * bytesPerRow cfg := by
  rw [get_1bit_eq_join, List.length_flatten]
  have hmap : ((List.range cfg.SIZE.2).map
        (fun y => packRow (rowBits cfg im y))).map List.length
      = (List.range cfg.SIZE.2).map (fun _ => bytesPerRow cfg) := by
    rw [List.map_map]
    apply List.map_congr_left
    intro y _
    simp [packRow_length, rowBits_length, bytesPerRow]
  rw [hmap, List.map_const']
  simp [List.sum_replicate, smul_eq_mul]


lemma shiftLeft_one (v : Nat) : v <<< 1 = 2 * v := by
  rw [Nat.shiftLeft_eq]
  ring

lemma packValFrom_append (v : Nat) (bits : List Nat) (b : Nat) :
    packValFrom v (bits ++ [b]) = 2 * packValFrom v bits + b := by
  simp [packValFrom, List.foldl_append, shiftLeft_one]

lemma packValFrom_lt (bits : List Nat) (v : Nat) (hb : ∀ b ∈ bits, b < 2) :
    packValFrom v bits < (v + 1) * 2 ^ bits.length := by
  induction bits using List.reverseRecOn with
  | nil => simp [packValFrom]
  | append_singleton bits b ih =>
    have hb2 : b < 2 := hb b (by simp)
    have hih := ih (fun x hx => hb x (by simp [hx]))
    rw [packValFrom_append]
    simp only [List.length_append, List.length_cons, List.length_nil, pow_succ]
    calc 2 * packValFrom v bits + b < 2 * (packValFrom v bits + 1) := by omega
    _ ≤ 2 * ((v + 1) * 2 ^ bits.length) := by omega
    _ = (v + 1) * (2 ^ bits.length * 2) := by ring

lemma packVal_lt (bits : List Nat) (hb : ∀ b ∈ bits, b < 2) :
    packVal bits < 2 ^ bits.length := by
  have := packValFrom_lt bits 0 hb
  simpa [packVal] using this

lemma testBit_packVal (bits : List Nat) (hb : ∀ b ∈ bits, b < 2) :
    ∀ k, k < bits.length →
      Nat.testBit (packVal bits) k = decide (bits.getD (bits.length - 1 - k) 0 = 1) := by
  induction bits using List.reverseRecOn with
  | nil => intro k hk; simp at hk
  | append_singleton bits b ih =>
    intro k hk
    have hb2 : b < 2 := hb b (by simp)
    have hv : packVal (bits ++ [b]) = 2 * packVal bits + b := packValFrom_append 0 bits b
    rcases k with _ | k
    · rw [hv, Nat.testBit_zero]
      have hmod : (2 * packVal bits + b) % 2 = b := by omega
      rw [hmod]
      have hidx : (bits ++ [b]).length - 1 - 0 = bits.length := by simp
      rw [hidx, List.getD_append_right bits [b] 0 bits.length (le_refl _)]
      simp
    · rw [hv, Nat.testBit_add_one]
      have hdiv : (2 * packVal bits + b) / 2 = packVal bits := by omega
      rw [hdiv]
      have hk' : k < bits.length := by
        simp only [List.length_append, List.length_cons, List.length_nil] at hk
        omega
      rw [ih (fun x hx => hb x (by simp [hx])) k hk']
      have hidx : (bits ++ [b]).length - 1 - (k + 1) = bits.length - 1 - k := by
        simp only [List.length_append, List.length_cons, List.length_nil]
        omega
      rw [hidx, List.getD_append bits [b] 0 (bits.length - 1 - k) (by omega)]


lemma packRow_cons_of_ge (bits : List Nat) (h : 8 ≤ bits.length) :
    packRow bits = packVal (bits.take 8) :: packRow (bits.drop 8) := by
  have hne : bits ≠ [] := by
    intro h0
    rw [h0] at h
    simp at h
  rw [packRow, if_neg hne, if_neg (by omega : ¬ bits.length < 8)]

lemma packRow_getD_full : ∀ (g : Nat) (bits : List Nat), 8 * (g + 1) ≤ bits.length →
    (packRow bits).getD g 0 = packVal ((bits.drop (8 * g)).take 8) := by
  intro g
  induction g with
  | zero =>
    intro bits h
    rw [packRow_cons_of_ge bits (by omega)]
    simp
  | succ g ih =>
    intro bits h
    rw [packRow_cons_of_ge bits (by omega)]
    simp only [List.getD_cons_succ]
    rw [ih (bits.drop 8) (by simp only [List.length_drop]; omega)]
    rw [List.drop_drop]
    have he : 8 + 8 * g = 8 * (g + 1) := by ring
    rw [he]

lemma packRow_getD_trailing (bits : List Nat) (h : bits.length % 8 ≠ 0) :
    (packRow bits).getD (bits.length / 8) 0
      = packVal (bits.drop (8 * (bits.length / 8))) <<< (7 - bits.length % 8) := by
  induction bits using packRow.induct with
  | case1 => simp at h
  | case2 bits hne hlt =>
    have hlen : bits.length ≠ 0 := fun h0 => hne (List.eq_nil_of_length_eq_zero h0)
    rw [packRow, if_neg hne, if_pos hlt]
    rw [Nat.div_eq_of_lt hlt, Nat.mod_eq_of_lt hlt]
    simp
  | case3 bits hne hge ih =>
    have h8 : 8 ≤ bits.length := by omega
    have hdiv : bits.length / 8 = (bits.length - 8) / 8 + 1 := by
      omega
    have hmod : (bits.length - 8) % 8 = bits.length % 8 := by
      omega
    rw [packRow_cons_of_ge bits h8, hdiv]
    simp only [List.getD_cons_succ]
    have hd : (bits.drop 8).length = bits.length - 8 := by simp
    have ih' := ih (by rw [hd, hmod]; exact h)
    rw [hd, hmod] at ih'
    rw [ih', List.drop_drop]
    have he : 8 + 8 * ((bits.length - 8) / 8) = 8 * (bits.length / 8) := by omega
    rw [he, ← hdiv]

lemma flatten_getD (L : Nat) :
    ∀ (l : List (List Nat)) (i g : Nat), (∀ r ∈ l, r.length = L) →
      i < l.length → g < L →
      l.flatten.getD (i * L + g) 0 = (l.getD i []).getD g 0 := by
  intro l
  induction l with
  | nil => intro i g _ hi _; simp at hi
  | cons a l ih =>
    intro i g hlen hi hg
    rcases i with _ | i
    · simp only [List.flatten_cons, Nat.zero_mul, Nat.zero_add, List.getD_cons_zero]
      exact List.getD_append a l.flatten 0 g (by rw [hlen a (by simp)]; exact hg)
    · have ha : a.length = L := hlen a (by simp)
      have hidx : (i + 1) * L + g = a.length + (i * L + g) := by
        rw [ha]; ring
      simp only [List.flatten_cons, List.getD_cons_succ]
      rw [hidx, List.getD_append_right a l.flatten 0 _ (by omega)]
      have : a.length + (i * L + g) - a.length = i * L + g := by omega
      rw [this]
      exact ih i g (fun r hr => hlen r (by simp [hr])) (by simpa using hi) hg

lemma get_1bit_getD (cfg : FontCfg) (im : Image) (y g : Nat)
    (hy : y < cfg.SIZE.2) (hg : g < bytesPerRow cfg) :
    (get_1bit cfg im).getD (y * bytesPerRow cfg + g) 0
      = (packRow (rowBits cfg im y)).getD g 0 := by
  rw [get_1bit_eq_join]
  rw [flatten_getD (bytesPerRow cfg) _ y g
    (by
      intro r hr
      simp only [List.mem_map, List.mem_range] at hr
      obtain ⟨y', _, rfl⟩ := hr
      rw [packRow_length, rowBits_length, bytesPerRow])
    (by simpa using hy) hg]
  congr 1
  rw [List.getD_eq_getElem _ _ (by simpa using hy)]
  simp


lemma pixbit_lt_two (im : Image) (x y : Nat) : pixbit im x y < 2 := by
  rw [pixbit]
  split <;> omega

lemma rowBits_mem_lt_two (cfg : FontCfg) (im : Image) (y : Nat) :
    ∀ b ∈ rowBits cfg im y, b < 2 := by
  intro b hb
  simp only [rowBits, List.mem_map] at hb
  obtain ⟨x, _, rfl⟩ := hb
  exact pixbit_lt_two im x y

lemma rowBits_getD (cfg : FontCfg) (im : Image) (y x : Nat) (hx : x < cfg.SIZE.1) :
    (rowBits cfg im y).getD x 0 = pixbit im x y := by
  rw [List.getD_eq_getElem _ _ (by simpa [rowBits] using hx)]
  simp [rowBits]

lemma extract_full (cfg : FontCfg) (im : Image) (x y : Nat)
    (hy : y < cfg.SIZE.2) (hx8 : x / 8 < cfg.SIZE.1 / 8) :
    Nat.testBit ((get_1bit cfg im).getD (y * bytesPerRow cfg + x / 8) 0) (7 - x % 8)
      = decide (pixbit im x y = 1) := by
  have hx : x < cfg.SIZE.1 := by
    have h1 : 8 * (x / 8 + 1) ≤ 8 * (cfg.SIZE.1 / 8) := by omega
    have h2 : 8 * (cfg.SIZE.1 / 8) ≤ cfg.SIZE.1 := Nat.mul_div_le _ 8
    omega
  have hw : 0 < cfg.SIZE.1 := by omega
  have hg : x / 8 < bytesPerRow cfg := by
    rw [bytesPerRow]; omega
  rw [get_1bit_getD cfg im y (x / 8) hy hg]
  have hlen8 : 8 * (x / 8 + 1) ≤ (rowBits cfg im y).length := by
    rw [rowBits_length]
    omega
  rw [packRow_getD_full (x / 8) _ hlen8]
  set chunk := ((rowBits cfg im y).drop (8 * (x / 8))).take 8 with hchunk
  have hclen : chunk.length = 8 := by
    rw [hchunk]
    simp only [List.length_take, List.length_drop, rowBits_length]
    omega
  have hcb : ∀ b ∈ chunk, b < 2 := by
    intro b hb
    exact rowBits_mem_lt_two cfg im y b (List.drop_subset _ _ (List.take_subset _ _ hb))
  rw [testBit_packVal chunk hcb (7 - x % 8) (by omega)]
  have hidx : chunk.length - 1 - (7 - x % 8) = x % 8 := by
    rw [hclen]
    omega
  rw [hidx]
  have hget : chunk.getD (x % 8) 0 = pixbit im x y := by
    rw [hchunk]
    rw [List.getD_eq_getElem _ _ (by
      simp only [List.length_take, List.length_drop, rowBits_length]
      omega)]
    simp only [List.getElem_take, List.getElem_drop]
    have hxx : 8 * (x / 8) + x % 8 = x := by omega
    simp only [hxx]
    simp [rowBits]
  rw [hget]


lemma extract_trailing (cfg : FontCfg) (im : Image) (x y : Nat)
    (hy : y < cfg.SIZE.2) (hx : x < cfg.SIZE.1) (hx8 : ¬ x / 8 < cfg.SIZE.1 / 8) :
    Nat.testBit ((get_1bit cfg im).getD (y * bytesPerRow cfg + x / 8) 0) (6 - x % 8)
      = decide (pixbit im x y = 1) := by
  have hdle : x / 8 ≤ cfg.SIZE.1 / 8 := Nat.div_le_div_right (le_of_lt hx)
  have hdeq : x / 8 = cfg.SIZE.1 / 8 := by omega
  have hfloor : 8 * (cfg.SIZE.1 / 8) ≤ x := by
    rw [← hdeq]
    exact Nat.mul_div_le x 8
  have hmlt : x % 8 < cfg.SIZE.1 % 8 := by
    have h1 := Nat.mul_div_le cfg.SIZE.1 8
    omega
  have hr : cfg.SIZE.1 % 8 ≠ 0 := by omega
  have hw : 0 < cfg.SIZE.1 := by omega
  have hg : x / 8 < bytesPerRow cfg := by
    rw [bytesPerRow, hdeq]
    omega
  rw [get_1bit_getD cfg im y (x / 8) hy hg]
  have hrb : (rowBits cfg im y).length = cfg.SIZE.1 := rowBits_length cfg im y
  have hgoal := packRow_getD_trailing (rowBits cfg im y) (by rw [hrb]; exact hr)
  rw [hrb] at hgoal
  rw [hdeq, hgoal]
  set part := (rowBits cfg im y).drop (8 * (cfg.SIZE.1 / 8)) with hpart
  have hplen : part.length = cfg.SIZE.1 % 8 := by
    rw [hpart]
    simp only [List.length_drop, rowBits_length]
    have h1 := Nat.mul_div_le cfg.SIZE.1 8
    omega
  have hpb : ∀ b ∈ part, b < 2 := by
    intro b hb
    exact rowBits_mem_lt_two cfg im y b (List.drop_subset _ _ hb)
  rw [Nat.testBit_shiftLeft]
  have hge : (6 - x % 8 ≥ 7 - cfg.SIZE.1 % 8) := by omega
  rw [decide_eq_true hge, Bool.true_and]
  have hkidx : 6 - x % 8 - (7 - cfg.SIZE.1 % 8) = cfg.SIZE.1 % 8 - 1 - x % 8 := by
    omega
  rw [hkidx]
  rw [testBit_packVal part hpb (cfg.SIZE.1 % 8 - 1 - x % 8) (by omega)]
  have hidx : part.length - 1 - (cfg.SIZE.1 % 8 - 1 - x % 8) = x % 8 := by
    rw [hplen]
    omega
  rw [hidx]
  have hget : part.getD (x % 8) 0 = pixbit im x y := by
    rw [hpart]
    rw [List.getD_eq_getElem _ _ (by
      simp only [List.length_drop, rowBits_length]
      have h1 := Nat.mul_div_le cfg.SIZE.1 8
      omega)]
    simp only [List.getElem_drop]
    have hxx : 8 * (cfg.SIZE.1 / 8) + x % 8 = x := by omega
    simp only [hxx]
    simp [rowBits]
  rw [hget]


lemma packRow_mem_lt (bits : List Nat) (hb : ∀ a ∈ bits, a < 2) :
    ∀ b ∈ packRow bits, b < 256 := by
  induction bits using packRow.induct with
  | case1 => simp [packRow]
  | case2 bits hne hlt =>
    rw [packRow, if_neg hne, if_pos hlt]
    intro b hbm
    simp only [List.mem_singleton] at hbm
    subst hbm
    rw [Nat.shiftLeft_eq]
    have h1 : packVal bits < 2 ^ bits.length := packVal_lt bits hb
    have h2 : packVal bits * 2 ^ (7 - bits.length) < 2 ^ bits.length * 2 ^ (7 - bits.length) :=
      (Nat.mul_lt_mul_right (Nat.pos_pow_of_pos _ (by omega))).mpr h1
    have h3 : (2 : Nat) ^ bits.length * 2 ^ (7 - bits.length) = 2 ^ (bits.length + (7 - bits.length)) :=
      (pow_add 2 _ _).symm
    have h4 : bits.length + (7 - bits.length) ≤ 8 := by omega
    have h5 : (2 : Nat) ^ (bits.length + (7 - bits.length)) ≤ 2 ^ 8 :=
      Nat.pow_le_pow_right (by omega) h4
    omega
  | case3 bits hne hge ih =>
    rw [packRow_cons_of_ge bits (by omega)]
    intro b hbm
    rcases List.mem_cons.mp hbm with hb1 | hb2
    · subst hb1
      have h1 : packVal (bits.take 8) < 2 ^ (bits.take 8).length :=
        packVal_lt _ (fun a ha => hb a (List.take_subset _ _ ha))
      have h2 : (bits.take 8).length ≤ 8 := by
        simp [List.length_take]
      have h3 : (2 : Nat) ^ (bits.take 8).length ≤ 2 ^ 8 :=
        Nat.pow_le_pow_right (by omega) h2
      omega
    · exact ih (fun a ha => hb a (List.drop_subset _ _ ha)) b hb2

lemma get_1bit_mem_lt (cfg : FontCfg) (im : Image) :
    ∀ b ∈ get_1bit cfg im, b < 256 := by
  intro b hb
  rw [get_1bit_eq_join] at hb
  rw [List.mem_flatten] at hb
  obtain ⟨row, hrow, hbrow⟩ := hb
  simp only [List.mem_map, List.mem_range] at hrow
  obtain ⟨y, _, rfl⟩ := hrow
  exact packRow_mem_lt _ (rowBits_mem_lt_two cfg im y) b hbrow

lemma rowBits_congr (cfg : FontCfg) (im1 im2 : Image) (y : Nat)
    (h : ∀ x, x < cfg.SIZE.1 → im1 x y = im2 x y) :
    rowBits cfg im1 y = rowBits cfg im2 y := by
  rw [rowBits, rowBits]
  apply List.map_congr_left
  intro x hx
  rw [pixbit, pixbit, h x (List.mem_range.mp hx)]

lemma get_1bit_congr (cfg : FontCfg) (im1 im2 : Image)
    (h : ∀ x y, x < cfg.SIZE.1 → y < cfg.SIZE.2 → im1 x y = im2 x y) :
    get_1bit cfg im1 = get_1bit cfg im2 := by
  rw [get_1bit_eq_join, get_1bit_eq_join]
  congr 1
  apply List.map_congr_left
  intro y hy
  rw [rowBits_congr cfg im1 im2 y (fun x hx => h x y hx (List.mem_range.mp hy))]


lemma floor_body : ⌊((26 : Nat) : ℚ) / 16 * 9⌋ = (14 : ℤ) := by norm_num

lemma floor_title : ⌊((50 : Nat) : ℚ) / 16 * 9⌋ = (28 : ℤ) := by norm_num

lemma default_WIDTH : FontCfg.default.WIDTH = 15 := by
  simp only [FontCfg.default, floor_body]
  rfl

lemma default_HEIGHT : FontCfg.default.HEIGHT = 30 := rfl

lemma default_SIZE : FontCfg.default.SIZE = (240, 180) := by
  simp only [FontCfg.default, floor_body]
  rfl

lemma title_WIDTH (cfg : FontCfg) : (FontCfg.as_title cfg).WIDTH = 28 := by
  simp only [FontCfg.as_title, floor_title]
  rfl

lemma title_HEIGHT (cfg : FontCfg) : (FontCfg.as_title cfg).HEIGHT = 54 := rfl

lemma title_SIZE (cfg : FontCfg) : (FontCfg.as_title cfg).SIZE = (448, 324) := by
  simp only [FontCfg.as_title, floor_title]
  rfl

/-- Claim C1 counterexample: on a 1-pixel-wide canvas whose single pixel is
above threshold, the trailing partial byte is `64` (bit 6 set), not a byte
with bit 7 set: the first collected pixel of the partial group does not land
in bit 7. -/
theorem claim1_counterexample :
    get_1bit cfg1 imOn = [64] ∧ pixbit imOn 0 0 = 1
      ∧ Nat.testBit 64 7 = false ∧ Nat.testBit 64 6 = true := by
  refine ⟨by decide, by decide, by decide, by decide⟩

/-- Claim C1 (amended): for every canvas row whose width `W` is not a
multiple of 8, the trailing partial byte is the collected bits left-shifted
by `7 - W % 8` positions, so the first collected pixel lands in bit 6; bit 7
and the remaining `7 - W % 8` low-order bits are zero. -/
theorem claim1_trailing_byte (cfg : FontCfg) (im : Image) (y : Nat)
    (hy : y < cfg.SIZE.2) (hr : cfg.SIZE.1 % 8 ≠ 0) :
    (get_1bit cfg im).getD (y * bytesPerRow cfg + cfg.SIZE.1 / 8) 0
        = packVal ((rowBits cfg im y).drop (8 * (cfg.SIZE.1 / 8)))
            <<< (7 - cfg.SIZE.1 % 8)
      ∧ (∀ k, k < 7 - cfg.SIZE.1 % 8 →
          Nat.testBit ((get_1bit cfg im).getD
            (y * bytesPerRow cfg + cfg.SIZE.1 / 8) 0) k = false)
      ∧ Nat.testBit ((get_1bit cfg im).getD
          (y * bytesPerRow cfg + cfg.SIZE.1 / 8) 0) 7 = false := by
  have hg : cfg.SIZE.1 / 8 < bytesPerRow cfg := by
    rw [bytesPerRow]
    omega
  have hrb : (rowBits cfg im y).length = cfg.SIZE.1 := rowBits_length cfg im y
  have hmain := packRow_getD_trailing (rowBits cfg im y) (by rw [hrb]; exact hr)
  rw [hrb] at hmain
  have hB : (get_1bit cfg im).getD (y * bytesPerRow cfg + cfg.SIZE.1 / 8) 0
      = packVal ((rowBits cfg im y).drop (8 * (cfg.SIZE.1 / 8)))
          <<< (7 - cfg.SIZE.1 % 8) := by
    rw [get_1bit_getD cfg im y (cfg.SIZE.1 / 8) hy hg, hmain]
  refine ⟨hB, ?_, ?_⟩
  · intro k hk
    rw [hB, Nat.testBit_shiftLeft]
    have : ¬ (k ≥ 7 - cfg.SIZE.1 % 8) := by omega
    simp [this]
  · rw [hB]
    apply Nat.testBit_eq_false_of_lt
    have hplen : ((rowBits cfg im y).drop (8 * (cfg.SIZE.1 / 8))).length
        = cfg.SIZE.1 % 8 := by
      simp only [List.length_drop, rowBits_length]
      have h1 := Nat.mul_div_le cfg.SIZE.1 8
      omega
    have h1 : packVal ((rowBits cfg im y).drop (8 * (cfg.SIZE.1 / 8)))
        < 2 ^ (cfg.SIZE.1 % 8) := by
      rw [← hplen]
      exact packVal_lt _ (fun a ha =>
        rowBits_mem_lt_two cfg im y a (List.drop_subset _ _ ha))
    rw [Nat.shiftLeft_eq]
    have h2 : (2 : Nat) ^ (cfg.SIZE.1 % 8) * 2 ^ (7 - cfg.SIZE.1 % 8)
        = 2 ^ (cfg.SIZE.1 % 8 + (7 - cfg.SIZE.1 % 8)) := (pow_add 2 _ _).symm
    have h3 : cfg.SIZE.1 % 8 + (7 - cfg.SIZE.1 % 8) = 7 := by omega
    calc packVal _ * 2 ^ (7 - cfg.SIZE.1 % 8)
        < 2 ^ (cfg.SIZE.1 % 8) * 2 ^ (7 - cfg.SIZE.1 % 8) :=
          (Nat.mul_lt_mul_right (Nat.pos_pow_of_pos _ (by omega))).mpr h1
    _ = 2 ^ 7 := by rw [h2, h3]

/-- Witness for C1 (amended) at the 3×2 canvas and the all-white image. -/
theorem claim1_trailing_byte_witness :
    (get_1bit cfg3 imOn).getD (0 * bytesPerRow cfg3 + cfg3.SIZE.1 / 8) 0
      = packVal ((rowBits cfg3 imOn 0).drop (8 * (cfg3.SIZE.1 / 8)))
          <<< (7 - cfg3.SIZE.1 % 8) :=
  (claim1_trailing_byte cfg3 imOn 0 (by decide) (by decide)).1


/-- Claim C2: for every configuration and pixel buffer, the list returned by
`get_1bit` has length `ceil(W / 8) * H` with `(W, H)` the canvas size. -/
theorem claim2_output_length (cfg : FontCfg) (im : Image) :
    (get_1bit cfg im).length = (cfg.SIZE.1 + 7) / 8 * cfg.SIZE.2 := by
  rw [get_1bit_length, bytesPerRow]
  ring

/-- Claim C3: for every pixel of the canvas, the packed bit is 1 iff the
pixel red channel is strictly greater than 32 (and 0 iff it is at most 32). -/
theorem claim3_threshold (cfg : FontCfg) (im : Image) (x y : Nat)
    (hx : x < cfg.SIZE.1) (hy : y < cfg.SIZE.2) :
    (extractBit cfg (get_1bit cfg im) x y = true ↔ 32 < (im x y).1) := by
  rw [extractBit, bitPos]
  by_cases h8 : x / 8 < cfg.SIZE.1 / 8
  · rw [if_pos h8, extract_full cfg im x y hy h8, pixbit]
    by_cases h : 32 < (im x y).1 <;> simp [h]
  · rw [if_neg h8, extract_trailing cfg im x y hy hx h8, pixbit]
    by_cases h : 32 < (im x y).1 <;> simp [h]

/-- Witness for C3 at the 1×1 canvas and the all-white image. -/
theorem claim3_threshold_witness :
    extractBit cfg1 (get_1bit cfg1 imOn) 0 0 = true ↔ 32 < (imOn 0 0).1 :=
  claim3_threshold cfg1 imOn 0 0 (by decide) (by decide)

/-- Claim C4: packing is row-major and MSB-first: for every pixel column `x`
lying in a complete group of 8 (`x / 8 < W / 8`), its bit is stored at bit
position `7 - x % 8` of byte `x / 8` of row `y`'s byte sequence (byte
`y * bytesPerRow + x / 8` of the flat output); with `x = 0` the first pixel
of each row lands in the most-significant bit of the row's first byte. -/
theorem claim4_msb_first (cfg : FontCfg) (im : Image) (x y : Nat)
    (hy : y < cfg.SIZE.2) (hfull : x / 8 < cfg.SIZE.1 / 8) :
    Nat.testBit ((get_1bit cfg im).getD (y * bytesPerRow cfg + x / 8) 0)
        (7 - x % 8)
      = decide (pixbit im x y = 1) :=
  extract_full cfg im x y hy hfull

/-- Witness for C4 at the 8×1 canvas and the all-white image: the first
pixel of the row is stored in bit 7 of the row's first byte. -/
theorem claim4_msb_first_witness :
    Nat.testBit ((get_1bit cfg8 imOn).getD (0 * bytesPerRow cfg8 + 0 / 8) 0)
        (7 - 0 % 8)
      = decide (pixbit imOn 0 0 = 1) :=
  claim4_msb_first cfg8 imOn 0 0 (by decide) (by decide)

/-- Claim C5: every canvas row starts a fresh output byte: `get_1bit` is the
concatenation, over the rows in order, of the packing of that row's bits
alone (`rowBits` reads only pixels of row `y`), so no emitted byte contains
bits from two different rows. -/
theorem claim5_fresh_byte_per_row (cfg : FontCfg) (im : Image) :
    get_1bit cfg im
      = ((List.range cfg.SIZE.2).map (fun y => packRow (rowBits cfg im y))).flatten :=
  get_1bit_eq_join cfg im

/-- Claim C6 counterexample: the glyph table holds 96 characters (95
printable ASCII characters plus the appended placeholder), not 97. -/
theorem claim6_counterexample :
    tableChars.length = 96 ∧ ¬ tableChars.length = 97 := by
  refine ⟨by decide, by decide⟩

/-- Claim C6 (amended): the glyph table contains exactly 96 entries (95
printable ASCII characters plus the appended `?` placeholder), arranged as
6 rows of 16 with the placeholder at index 95. -/
theorem claim6_glyph_table :
    tableChars.length = 96
      ∧ glyphGrid.length = 6
      ∧ glyphGrid.map List.length = [16, 16, 16, 16, 16, 16]
      ∧ glyphGrid.flatten = tableChars
      ∧ tableChars.getD 95 0 = 63 := by
  refine ⟨by decide, by decide, by decide, by decide, by decide⟩


/-- Claim C7 counterexample: the body configuration (`SIZE = 26`) has cell
width `int(26 / 16 * 9) + 1 = 15`, not 16, and canvas `(240, 180)`, not
`(256, 180)`. -/
theorem claim7_counterexample :
    FontCfg.default.WIDTH = 15 ∧ ¬ FontCfg.default.WIDTH = 16
      ∧ FontCfg.default.SIZE = (240, 180)
      ∧ ¬ FontCfg.default.SIZE = (256, 180) := by
  refine ⟨default_WIDTH, ?_, default_SIZE, ?_⟩
  · rw [default_WIDTH]
    omega
  · rw [default_SIZE]
    simp

/-- Claim C7 (amended): the body configuration (`SIZE = 26`) has cell
`WIDTH = 15` and `HEIGHT = 30`, canvas `(240, 180)`, and its packed output
has `ceil(240 / 8) * 180 = 30 * 180 = 5400` bytes for every pixel buffer. -/
theorem claim7_body_metrics :
    FontCfg.default.WIDTH = 15 ∧ FontCfg.default.HEIGHT = 30
      ∧ FontCfg.default.SIZE = (240, 180)
      ∧ ∀ im : Image, (get_1bit FontCfg.default im).length = 5400 := by
  refine ⟨default_WIDTH, default_HEIGHT, default_SIZE, ?_⟩
  intro im
  rw [get_1bit_length, bytesPerRow, default_SIZE]
  norm_num

/-- Claim C8: the title configuration produced by `as_title`
(`BLOCK_SIZE = 50`) has cell `WIDTH = 28` and `HEIGHT = 54`, canvas
`(448, 324)`, and its packed output has `ceil(448 / 8) * 324 = 18144` bytes
for every pixel buffer. -/
theorem claim8_title_metrics (cfg : FontCfg) :
    (FontCfg.as_title cfg).WIDTH = 28 ∧ (FontCfg.as_title cfg).HEIGHT = 54
      ∧ (FontCfg.as_title cfg).SIZE = (448, 324)
      ∧ ∀ im : Image, (get_1bit (FontCfg.as_title cfg) im).length = 18144 := by
  refine ⟨title_WIDTH cfg, title_HEIGHT cfg, title_SIZE cfg, ?_⟩
  intro im
  rw [get_1bit_length, bytesPerRow, title_SIZE]
  norm_num

/-- Claim C9: the packing step is deterministic: two runs of `get_1bit` on
the same configuration and the same pixel contents (images agreeing on every
canvas pixel) produce identical byte sequences. -/
theorem claim9_deterministic (cfg : FontCfg) (im1 im2 : Image)
    (h : ∀ x y, x < cfg.SIZE.1 → y < cfg.SIZE.2 → im1 x y = im2 x y) :
    get_1bit cfg im1 = get_1bit cfg im2 :=
  get_1bit_congr cfg im1 im2 h

/-- Witness for C9: two differently defined images that agree on the 1×1
canvas pack to the same bytes. -/
theorem claim9_deterministic_witness :
    get_1bit cfg1 imOn = get_1bit cfg1 imOrigin :=
  claim9_deterministic cfg1 imOn imOrigin (by
    intro x y hx hy
    have hx1 : x < 1 := hx
    have hy1 : y < 1 := hy
    have hx0 : x = 0 := by omega
    have hy0 : y = 0 := by omega
    subst hx0
    subst hy0
    rfl)

/-- Claim C10: every element of the list returned by `get_1bit` is in the
byte range 0..255 (so `bytes(res)` in `gen` cannot fail). -/
theorem claim10_byte_range (cfg : FontCfg) (im : Image) (b : Nat)
    (hb : b ∈ get_1bit cfg im) : b ≤ 255 := by
  have := get_1bit_mem_lt cfg im b hb
  omega

/-- Witness for C10: the byte 64 emitted for the 1×1 all-white canvas is in
range. -/
theorem claim10_byte_range_witness : (64 : Nat) ≤ 255 :=
  claim10_byte_range cfg1 imOn 64 (by decide)

end GGOSFont
